import Mathlib

/-!
# Verification of the openham-modes signal chain

A shallow embedding of the parts of the `openham-modes` Rust sources that
the specification's testable properties talk about:

* `crates/frame/src/frame.rs` — `FrameHeader` and `Frame` construction,
  checksum, serialization and parsing;
* `crates/codecs/src/text.rs` — the canonical Huffman text codec with
  ham-token aliasing, the 16-bit valid-bit-count container and the
  UTF-8 escape;
* `crates/modem/src/ofdm.rs` — the two `OfdmConfig` constructors;
* `crates/modem/src/bpsk.rs` — the BPSK demodulator control flow;
* `crates/modem/src/fsk.rs` — the FSK demodulator buffer behaviour;
* `crates/tools/src/bin/openham-main.rs` — the multi-alignment sync
  preamble search.

Machine integers are modelled as `Nat` with explicit `% 2^w` at the
points where the Rust code truncates; byte values are `Nat`s kept below
256 by construction or hypothesis.  Bits are `Bool` (`true` = 1).
Floating-point signal arithmetic is abstracted by universally
quantified parameters wherever a claim depends only on control flow.
-/

/-! ## Bit and byte utilities

The Rust sources repeatedly unpack bytes into bits MSB-first and pack
them back (`text.rs` encode/decode, `openham-main.rs` alignment search,
`bpsk.rs`/`fsk.rs` byte assembly).  These helpers model that code.
-/

/-- Bits of one byte, most significant first (`for i in (0..8).rev()`). -/
def byteBitsMsb (b : Nat) : List Bool :=
  [b.testBit 7, b.testBit 6, b.testBit 5, b.testBit 4,
   b.testBit 3, b.testBit 2, b.testBit 1, b.testBit 0]

/-- Unpack a byte list into a bit list, MSB-first within each byte. -/
def bitsOfBytesMsb (data : List Nat) : List Bool :=
  data.flatMap byteBitsMsb

/-- Pack up to eight bits into a byte: bit `k` of the chunk sets bit
`7 - k` of the byte (`if bit == 1 { byte_val |= 1 << (7 - i) }`). -/
def byteOfBits (chunk : List Bool) : Nat :=
  go chunk 0
where
  go : List Bool → Nat → Nat
  | [], _ => 0
  | b :: rest, k => (if b then 1 <<< (7 - k) else 0) ||| go rest (k + 1)

/-- Pack a bit list into bytes eight at a time; a trailing partial chunk
still yields a byte (as `chunks(8)` does in `text.rs`). -/
def bytesOfBits : List Bool → List Nat
  | [] => []
  | b0 :: b1 :: b2 :: b3 :: b4 :: b5 :: b6 :: b7 :: rest =>
      byteOfBits [b0, b1, b2, b3, b4, b5, b6, b7] :: bytesOfBits rest
  | l => [byteOfBits l]

/-- Pack a bit list into bytes, discarding a trailing partial chunk
(`if chunk.len() < 8 { break; }` in `openham-main.rs`). -/
def bytesOfBitsFull : List Bool → List Nat
  | b0 :: b1 :: b2 :: b3 :: b4 :: b5 :: b6 :: b7 :: rest =>
      byteOfBits [b0, b1, b2, b3, b4, b5, b6, b7] :: bytesOfBitsFull rest
  | _ => []

/-- Big-endian bytes of a 16-bit value (`u16::to_be_bytes`). -/
def be16 (n : Nat) : List Nat := [n / 256 % 256, n % 256]

/-- Read a big-endian 16-bit value from two bytes (`u16::from_be_bytes`). -/
def readU16 (hi lo : Nat) : Nat := hi * 256 + lo

/-! ## Frame layer (`crates/frame/src/frame.rs`) -/

namespace OpenhamFrame

/-- Error kinds of the frame crate that `frame.rs` can produce. -/
inductive FrameError where
  | InvalidFormat (msg : String)
  | SizeMismatch (expected actual : Nat)
  deriving DecidableEq, Repr

/-- Frame header with the five fields of `FrameHeader`; `frame_type` and
`flags` are `u8`-valued, the rest `u16`-valued. -/
structure FrameHeader where
  frame_type : Nat
  sequence : Nat
  payload_length : Nat
  flags : Nat
  checksum : Nat
  deriving DecidableEq, Repr

namespace FrameHeader

/-- Checksum of `FrameHeader::calculate_checksum`: the ones-complement
(`!sum`, i.e. `65535 - sum` for a `u16`) of the wrapping 16-bit sum of
the first four fields. -/
def calculate_checksum (h : FrameHeader) : Nat :=
  65535 - (h.frame_type + h.sequence + h.payload_length + h.flags) % 65536

/-- Constructor `FrameHeader::new`: store the fields and fill in the
checksum. -/
def new (frame_type sequence payload_length flags : Nat) : FrameHeader :=
  let h : FrameHeader :=
    { frame_type, sequence, payload_length, flags, checksum := 0 }
  { h with checksum := h.calculate_checksum }

/-- Predicate of `FrameHeader::validate_checksum`. -/
def validate_checksum (h : FrameHeader) : Bool :=
  h.checksum == h.calculate_checksum

/-- Serialization `FrameHeader::to_bytes`: `frame_type`, big-endian
`sequence`, big-endian `payload_length`, `flags`, big-endian `checksum`. -/
def to_bytes (h : FrameHeader) : List Nat :=
  [h.frame_type % 256] ++ be16 h.sequence ++ be16 h.payload_length ++
    [h.flags % 256] ++ be16 h.checksum

/-- Parser `FrameHeader::from_bytes`: length check, field extraction,
checksum validation. -/
def from_bytes (bytes : List Nat) : Except FrameError FrameHeader :=
  if bytes.length < 8 then
    .error (.InvalidFormat s!"Header too short: {bytes.length} bytes")
  else
    let h : FrameHeader :=
      { frame_type := bytes.getD 0 0
        sequence := readU16 (bytes.getD 1 0) (bytes.getD 2 0)
        payload_length := readU16 (bytes.getD 3 0) (bytes.getD 4 0)
        flags := bytes.getD 5 0
        checksum := readU16 (bytes.getD 6 0) (bytes.getD 7 0) }
    if h.validate_checksum then .ok h
    else .error (.InvalidFormat "Header checksum mismatch")

end FrameHeader

/-- A frame: header plus payload bytes. -/
structure Frame where
  header : FrameHeader
  payload : List Nat
  deriving DecidableEq, Repr

namespace Frame

/-- Constructor `Frame::new`; `payload.len() as u16` truncates the
length to 16 bits. -/
def new (frame_type sequence : Nat) (payload : List Nat) (flags : Nat) : Frame :=
  { header := FrameHeader.new frame_type sequence (payload.length % 65536) flags
    payload }

/-- Serialization `Frame::to_bytes`: header bytes then payload. -/
def to_bytes (f : Frame) : List Nat :=
  f.header.to_bytes ++ f.payload

/-- Parser `Frame::from_bytes`: parse the header, then read exactly
`payload_length` bytes after it. -/
def from_bytes (bytes : List Nat) : Except FrameError Frame :=
  if bytes.length < 8 then
    .error (.InvalidFormat "Frame too short for header")
  else
    match FrameHeader.from_bytes (bytes.take 8) with
    | .error e => .error e
    | .ok header =>
      let expected_total_size := 8 + header.payload_length
      if bytes.length < expected_total_size then
        .error (.SizeMismatch expected_total_size bytes.length)
      else
        .ok { header, payload := (bytes.drop 8).take header.payload_length }

end Frame

/-- Flip the single bit at (MSB-first) position `k` of a byte stream:
byte `k / 8` has its bit `7 - k % 8` toggled. -/
def flipBit (k : Nat) (bytes : List Nat) : List Nat :=
  bytes.set (k / 8) (bytes.getD (k / 8) 0 ^^^ (1 <<< (7 - k % 8)))

end OpenhamFrame


/-! ## Text codec layer (`crates/codecs/src/text.rs`)

The canonical Huffman codec.  Strings are modelled as `List Char`
(Unicode scalars); the byte-position arithmetic of the Rust encoder is
faithful to this view because ham tokens are pure ASCII, so a token
match can only start and end at character boundaries, and the
adjacent-byte alphanumeric tests coincide with adjacent-character
tests (a continuation or leading byte of a multi-byte character is
never ASCII-alphanumeric).
-/

namespace OpenhamCodecs

/-- Error type of the codecs crate (`CodecError::DecodingFailed`). -/
inductive CodecError where
  | DecodingFailed (msg : String)
  deriving DecidableEq, Repr

/-- ASCII lowercasing (`u8::to_ascii_lowercase`) lifted to characters. -/
def asciiLower (c : Char) : Char :=
  if 'A' ≤ c ∧ c ≤ 'Z' then Char.ofNat (c.toNat + 32) else c

/-- Case-insensitive ASCII equality (`u8::eq_ignore_ascii_case`). -/
def eqIgnoreAsciiCase (a b : Char) : Bool :=
  asciiLower a == asciiLower b

/-- ASCII alphanumeric test (`u8::is_ascii_alphanumeric`); false on
every non-ASCII scalar. -/
def isAsciiAlnum (c : Char) : Bool :=
  decide (('0' ≤ c ∧ c ≤ '9') ∨ ('A' ≤ c ∧ c ≤ 'Z') ∨ ('a' ≤ c ∧ c ≤ 'z'))

/-- The 22 ham tokens of `init_tokens`, in declaration order (longer
tokens first, as the source comment notes). -/
def tokens : List String :=
  ["QRZ", "QRM", "QRO", "QRP", "QRS", "QRT", "QRB", "QSB", "QSL", "QSO", "QSY", "QTH",
   "CQ", "DE", "BK", "KN", "K", "AR", "SK", "YL", "OM", "73"]

/-- Sentinel character for token number `i`: Private Use Area
`U+E000 + i`. -/
def sentinel (i : Nat) : Char := Char.ofNat (0xE000 + i)

/-- The token → sentinel map (`token_map`), as an association list in
insertion order. -/
def token_map : List (String × Char) :=
  tokens.enum.map (fun p => (p.2, sentinel p.1))

/-- The sentinel → token map (`reverse_token_map`). -/
def reverse_token_map : List (Char × String) :=
  tokens.enum.map (fun p => (sentinel p.1, p.2))

/-- Letter weights of `build_english_table` (uppercase entries; the
lowercase twin of each letter gets the same weight). -/
def letter_freqs : List (Char × Nat) :=
  [('E', 120), ('T', 90), ('A', 81), ('O', 75), ('I', 70), ('N', 67),
   ('S', 63), ('H', 61), ('R', 60), ('D', 43), ('L', 40), ('C', 28),
   ('U', 28), ('M', 24), ('W', 24), ('F', 22), ('G', 20), ('Y', 20),
   ('P', 19), ('B', 15), ('V', 10), ('K', 8), ('J', 2), ('X', 2),
   ('Q', 1), ('Z', 1)]

/-- Punctuation weights of `build_english_table`.  `Char.ofNat 39` is
the apostrophe and `Char.ofNat 34` the double quote. -/
def punct_freqs : List (Char × Nat) :=
  [('.', 12), (',', 12), ('!', 6), ('?', 6), (':', 4), (';', 4),
   ('-', 7), (Char.ofNat 39, 5), (Char.ofNat 34, 3), ('(', 2), (')', 2), ('/', 2)]

/-- The full frequency table assembled by `build_english_table`: space,
letters in both cases, digits (weight 8), punctuation, then the 22
token sentinels with weight 180.  The Rust source appends the
sentinels while iterating a `HashMap`, whose order is unspecified; we
fix ascending code points.  The canonical code of every non-sentinel
symbol is independent of that order (the multiset of code lengths is
fixed, sentinels sort after all ASCII symbols, and only which sentinel
receives which same-length code can vary), so no theorem below
depends on the choice. -/
def english_freqs : List (Char × Nat) :=
  [(' ', 700)]
    ++ letter_freqs.flatMap (fun p => [(p.1, p.2), (asciiLower p.1, p.2)])
    ++ (List.range 10).map (fun d => (Char.ofNat (48 + d), 8))
    ++ punct_freqs
    ++ (List.range tokens.length).map (fun i => (sentinel i, 180))

/-- Huffman tree node (`Node` in `build_codes_from_frequencies`). -/
inductive HuffTree where
  | leaf (symbol : Char) (weight : Nat)
  | node (weight : Nat) (left right : HuffTree)

/-- Heap item `(weight, tie-breaking counter, node)`.  The Rust
`BinaryHeap` with the reversed comparator pops items in ascending
`(weight, counter)` order; since counters are unique the order is
total, and a list kept sorted by that order pops the exact same
sequence. -/
abbrev HeapItem := Nat × Nat × HuffTree

/-- Strict heap order on `(weight, counter)`. -/
def heapBefore (a b : HeapItem) : Prop :=
  a.1 < b.1 ∨ (a.1 = b.1 ∧ a.2.1 < b.2.1)

instance : DecidablePred (fun p : HeapItem × HeapItem => heapBefore p.1 p.2) :=
  fun _ => by unfold heapBefore; infer_instance

instance (a b : HeapItem) : Decidable (heapBefore a b) := by
  unfold heapBefore; infer_instance

/-- The initial heap: one leaf per positive-weight symbol, counters
numbered from 1 in insertion order. -/
def initialHeap : List HeapItem :=
  ((english_freqs.filter (fun p => 0 < p.2)).enum.map
      (fun p => (p.2.2, p.1 + 1, HuffTree.leaf p.2.1 p.2.2))).foldl
    (fun h x => h.orderedInsert (fun a b => decide (heapBefore a b)) x) []

/-- One heap push (`heap.push`), keeping the list sorted in pop order. -/
def heapPush (x : HeapItem) (h : List HeapItem) : List HeapItem :=
  h.orderedInsert (fun a b => decide (heapBefore a b)) x

/-- The merge loop of `build_codes_from_frequencies` (`while heap.len()
> 1`): pop the two items with the smallest `(weight, counter)` keys —
the head of the sorted list — and push their parent with the next
counter value.  `fuel` bounds the number of merges; the initial heap size is enough
since every merge shrinks the heap by one. -/
def mergeHeap : Nat → List HeapItem → Nat → Option HuffTree
  | _, [], _ => none
  | _, [x], _ => some x.2.2
  | 0, x :: _ :: _, _ => some x.2.2
  | fuel + 1, x :: y :: rest, counter =>
      mergeHeap fuel
        (heapPush (x.1 + y.1, counter + 1, HuffTree.node (x.1 + y.1) x.2.2 y.2.2) rest)
        (counter + 1)

/-- Depth collection by depth-first search (`dfs`): left before right,
with the single-symbol alphabet mapped to length 1. -/
def collectLengths : HuffTree → Nat → List (Char × Nat)
  | .leaf c _, depth => [(c, if depth = 0 then 1 else depth)]
  | .node _ l r, depth => collectLengths l (depth + 1) ++ collectLengths r (depth + 1)

/-- Sort order of the canonical assignment: by `(length, symbol)`
ascending (`a.1.cmp(&b.1).then_with(|| a.0.cmp(&b.0))`). -/
def canonBefore (a b : Char × Nat) : Prop :=
  a.2 < b.2 ∨ (a.2 = b.2 ∧ a.1 ≤ b.1)

instance (a b : Char × Nat) : Decidable (canonBefore a b) := by
  unfold canonBefore; infer_instance

/-- Bits of the `len`-bit code value `v`, MSB first
(`for i in (0..len).rev()`). -/
def codeBits (v len : Nat) : List Bool :=
  (List.range len).reverse.map v.testBit

/-- Canonical code assignment: shift `code_val` left when the length
grows, emit the code, then increment. -/
def assignCodes : List (Char × Nat) → Nat → Nat → List (Char × List Bool)
  | [], _, _ => []
  | (ch, len) :: rest, code_val, prev_len =>
      let cv := if prev_len < len then code_val <<< (len - prev_len) else code_val
      (ch, codeBits cv len) :: assignCodes rest (cv + 1) len

/-- The sorted `(symbol, code length)` list of `new_english`'s table
construction. -/
def huffLengths : List (Char × Nat) :=
  match mergeHeap initialHeap.length initialHeap
      (english_freqs.filter (fun p => 0 < p.2)).length with
  | none => []
  | some root =>
      (collectLengths root 0).insertionSort (fun a b => decide (canonBefore a b))

/-- The canonical `encode_table` of `HuffmanCodec::new_english`, as an
association list from symbol to MSB-first code bits. -/
def encode_table : List (Char × List Bool) :=
  assignCodes huffLengths 0 (match huffLengths.head? with
    | some p => p.2
    | none => 1)

/-- Decode trie node (`DecodeNode`): optional symbol, optional
children. -/
inductive DecodeNode where
  | mk : Option Char → Option DecodeNode → Option DecodeNode → DecodeNode

/-- Symbol stored at a trie node. -/
def DecodeNode.character : DecodeNode → Option Char
  | .mk c _ _ => c

/-- Left child (`0` bit). -/
def DecodeNode.left : DecodeNode → Option DecodeNode
  | .mk _ l _ => l

/-- Right child (`1` bit). -/
def DecodeNode.right : DecodeNode → Option DecodeNode
  | .mk _ _ r => r

/-- The empty trie node. -/
def DecodeNode.empty : DecodeNode := .mk none none none

/-- Insert one code path into the trie (`build_decode_tree`'s inner
loop): follow the bits, creating missing children, then store the
symbol at the final node. -/
def insertCode : DecodeNode → List Bool → Char → DecodeNode
  | .mk _ l r, [], ch => .mk (some ch) l r
  | .mk c l r, false :: bits, ch =>
      .mk c (some (insertCode (l.getD .empty) bits ch)) r
  | .mk c l r, true :: bits, ch =>
      .mk c l (some (insertCode (r.getD .empty) bits ch))

/-- The decode trie built from the encode table.  The Rust code
iterates the `encode_table` `HashMap` in unspecified order; trie
insertion of prefix-free codes is order-independent, so the list
order is used. -/
def decode_tree : DecodeNode :=
  encode_table.foldl (fun t p => insertCode t p.2 p.1) .empty

/-- Code lookup in the encode table (`encode_table.get`). -/
def lookupCode (c : Char) : Option (List Bool) :=
  encode_table.lookup c

/-- The token list sorted by length descending (`token_list.sort_by(|a,
b| b.len().cmp(&a.len()))`).  The Rust source collects `HashMap` keys
in unspecified order before the stable sort; we start from
declaration order.  At most one token can match at a given text
position for each token length, so the greedy matcher's output does
not depend on the order within a length class. -/
def token_list : List String :=
  (token_map.map (fun p => p.1)).insertionSort (fun a b => b.length ≤ a.length)

/-- Case-insensitive prefix test, character by character; equivalent to
the source's `i + tlen <= bytes.len() &&
bytes[i..i+tlen].eq_ignore_ascii_case(tok.as_bytes())`. -/
def isPrefixIC : List Char → List Char → Bool
  | [], _ => true
  | _ :: _, [] => false
  | t :: ts, c :: cs => eqIgnoreAsciiCase c t && isPrefixIC ts cs

/-- UTF-8 bytes of a scalar (`char::encode_utf8`). -/
def utf8Bytes (c : Char) : List Nat :=
  let v := c.toNat
  if v < 0x80 then [v]
  else if v < 0x800 then
    [0xC0 ||| (v >>> 6), 0x80 ||| (v &&& 0x3F)]
  else if v < 0x10000 then
    [0xE0 ||| (v >>> 12), 0x80 ||| ((v >>> 6) &&& 0x3F), 0x80 ||| (v &&& 0x3F)]
  else
    [0xF0 ||| (v >>> 18), 0x80 ||| ((v >>> 12) &&& 0x3F),
     0x80 ||| ((v >>> 6) &&& 0x3F), 0x80 ||| (v &&& 0x3F)]

/-- Escape emission for a symbol outside the table: twenty `1` bits,
two bits of `len − 1`, then the UTF-8 bytes MSB-first. -/
def escapeBits (c : Char) : List Bool :=
  let u := utf8Bytes c
  let len_field := u.length - 1
  List.replicate 20 true ++ [len_field.testBit 1, len_field.testBit 0]
    ++ u.flatMap byteBitsMsb

/-- Greedy token match at the current position (the `for tok in
&token_list` loop): a match needs a case-insensitive prefix match,
non-alphanumeric neighbours on both sides, and a code for the
sentinel; it yields the code and the token length. -/
def tryToken (prev : Option Char) (s : List Char) : List String → Option (List Bool × Nat)
  | [] => none
  | tok :: rest =>
      let tl := tok.toList
      if isPrefixIC tl s then
        let prevAlnum := match prev with
          | none => false
          | some c => isAsciiAlnum c
        let nextAlnum := match s.drop tl.length with
          | [] => false
          | c :: _ => isAsciiAlnum c
        if prevAlnum || nextAlnum then tryToken prev s rest
        else
          match token_map.lookup tok with
          | none => tryToken prev s rest
          | some sent =>
              match lookupCode sent with
              | none => tryToken prev s rest
              | some code => some (code, tl.length)
      else tryToken prev s rest

/-- The encoder's main loop over byte positions.  `prev` is the
character ending just before the current position (for the
word-boundary test); `fuel` bounds the number of loop iterations and
is initialized to the text length, an upper bound since every
iteration consumes at least one character (every token is nonempty). -/
def encodeLoop : Nat → Option Char → List Char → List Bool
  | 0, _, _ => []
  | _, _, [] => []
  | fuel + 1, prev, s@(c :: rest) =>
      match tryToken prev s token_list with
      | some (code, tlen) =>
          code ++ encodeLoop fuel ((s.take tlen).getLast?) (s.drop tlen)
      | none =>
          (match lookupCode c with
            | some code => code
            | none => escapeBits c) ++ encodeLoop fuel (some c) rest

/-- Payload bits of `HuffmanCodec::encode` before the header and
padding are added. -/
def encodeBits (text : List Char) : List Bool :=
  encodeLoop text.length none text

/-- Sixteen bits of the valid-bit-count header, MSB first
(`for i in (0..16).rev()`). -/
def word16BitsMsb (n : Nat) : List Bool :=
  [n.testBit 15, n.testBit 14, n.testBit 13, n.testBit 12,
   n.testBit 11, n.testBit 10, n.testBit 9, n.testBit 8,
   n.testBit 7, n.testBit 6, n.testBit 5, n.testBit 4,
   n.testBit 3, n.testBit 2, n.testBit 1, n.testBit 0]

/-- `HuffmanCodec::encode`: payload bits, prefixed by the 16-bit
valid-bit count (`bits.len() as u16`, so the count wraps modulo
2^16), zero-padded to a byte boundary and packed MSB-first. -/
def encode (text : List Char) : List Nat :=
  let bits := encodeBits text
  let valid := bits.length % 65536
  let full_bits := word16BitsMsb valid ++ bits
  let padded := full_bits ++ List.replicate ((8 - full_bits.length % 8) % 8) false
  bytesOfBits padded

/-- Value of a continuation byte, or `none` if the byte is not a valid
UTF-8 continuation (`0x80..=0xBF`). -/
def utf8Cont (b : Nat) : Option Nat :=
  if 0x80 ≤ b ∧ b ≤ 0xBF then some (b &&& 0x3F) else none

/-- UTF-8 validation and decoding of a byte list
(`std::str::from_utf8`): shortest-form only, surrogates and scalars
above `U+10FFFF` rejected. -/
def utf8Decode : List Nat → Option (List Char)
  | [] => some []
  | b0 :: rest =>
    if b0 ≤ 0x7F then
      match utf8Decode rest with
      | some cs => some (Char.ofNat b0 :: cs)
      | none => none
    else if 0xC2 ≤ b0 ∧ b0 ≤ 0xDF then
      match rest with
      | b1 :: rest2 =>
        match utf8Cont b1 with
        | some v1 =>
          match utf8Decode rest2 with
          | some cs => some (Char.ofNat (((b0 &&& 0x1F) <<< 6) ||| v1) :: cs)
          | none => none
        | none => none
      | [] => none
    else if 0xE0 ≤ b0 ∧ b0 ≤ 0xEF then
      match rest with
      | b1 :: b2 :: rest2 =>
        -- byte-two range depends on the leading byte: no overlongs
        -- (`E0` needs `A0..BF`) and no surrogates (`ED` needs `80..9F`)
        if (b0 = 0xE0 → 0xA0 ≤ b1) ∧ (b0 = 0xED → b1 ≤ 0x9F) then
          match utf8Cont b1, utf8Cont b2 with
          | some v1, some v2 =>
            match utf8Decode rest2 with
            | some cs =>
                some (Char.ofNat (((b0 &&& 0x0F) <<< 12) ||| (v1 <<< 6) ||| v2) :: cs)
            | none => none
          | _, _ => none
        else none
      | _ => none
    else if 0xF0 ≤ b0 ∧ b0 ≤ 0xF4 then
      match rest with
      | b1 :: b2 :: b3 :: rest2 =>
        -- `F0` needs `90..BF`, `F4` needs `80..8F`: scalars in
        -- `U+10000..=U+10FFFF` only
        if (b0 = 0xF0 → 0x90 ≤ b1) ∧ (b0 = 0xF4 → b1 ≤ 0x8F) then
          match utf8Cont b1, utf8Cont b2, utf8Cont b3 with
          | some v1, some v2, some v3 =>
            match utf8Decode rest2 with
            | some cs =>
                some (Char.ofNat
                  (((b0 &&& 0x07) <<< 18) ||| (v1 <<< 12) ||| (v2 <<< 6) ||| v3) :: cs)
            | none => none
          | _, _, _ => none
        else none
      | _ => none
    else none

/-- Output of one decoded symbol: sentinels expand to their token
string (`reverse_token_map.get`), other symbols to themselves. -/
def charOut (ch : Char) : List Char :=
  match reverse_token_map.lookup ch with
  | some tok => tok.toList
  | none => [ch]

/-- Header value read by the decoder: sixteen bits folded MSB-first
(`bit_len = (bit_len << 1) | bit`). -/
def foldBitsNat (bits : List Bool) : Nat :=
  bits.foldl (fun acc b => 2 * acc + (if b then 1 else 0)) 0

/-- The decoder's bit loop.  At every bit position it first looks for
the escape marker (more than twenty bits remaining and the next
twenty all ones); an incomplete escape ends decoding silently
(`break`), a complete one appends the UTF-8 bytes or fails.
Otherwise it walks the trie one bit, emitting a symbol and returning
to the root at each leaf.  `fuel` bounds the number of iterations;
the bit count is enough since every iteration consumes at least one
bit. -/
def decodeBits : Nat → List Bool → DecodeNode → List Char → Except CodecError (List Char)
  | _, [], _, acc => .ok acc
  | 0, _ :: _, _, acc => .ok acc
  | fuel + 1, bits@(b :: rest), cur, acc =>
    if 20 < bits.length ∧ (bits.take 20).all (fun x => x) then
      if bits.length < 22 then .ok acc
      else
        let n := 2 * (if bits.getD 20 false then 1 else 0)
          + (if bits.getD 21 false then 1 else 0) + 1
        let needed := 22 + 8 * n
        if bits.length < needed then .ok acc
        else
          match utf8Decode (bytesOfBits ((bits.drop 22).take (8 * n))) with
          | none => .error (.DecodingFailed "Invalid UTF-8 in escape")
          | some cs => decodeBits fuel (bits.drop needed) decode_tree (acc ++ cs)
    else
      match (match b with | false => cur.left | true => cur.right) with
      | none => .error (.DecodingFailed
          (if b then "Invalid bit sequence - no right branch"
           else "Invalid bit sequence - no left branch"))
      | some next =>
        match next.character with
        | some ch => decodeBits fuel rest decode_tree (acc ++ charOut ch)
        | none => decodeBits fuel rest next acc

/-- `HuffmanCodec::decode`: length checks, 16-bit header read, clamp to
the available bits, then the bit loop. -/
def decode (data : List Nat) : Except CodecError (List Char) :=
  if data.length < 2 then .error (.DecodingFailed "Data too short")
  else
    let all_bits := bitsOfBytesMsb data
    if all_bits.length < 16 then .error (.DecodingFailed "Insufficient header bits")
    else
      let bit_len := foldBitsNat (all_bits.take 16)
      let available := all_bits.length - 16
      let tk := min bit_len available
      let bits := (all_bits.drop 16).take tk
      decodeBits bits.length bits decode_tree []

end OpenhamCodecs

/-! ## Modem layer (`crates/modem/src`)

The OFDM carrier plans are exact integer data.  The BPSK and FSK
demodulators mix floating-point signal arithmetic with discrete
control flow; the embeddings below keep the control flow exact and
abstract the transcendental oscillator values behind universally
quantified parameters (rational-valued), so every theorem about them
holds for the actual `cos`/`sin` values as a special case.
-/

namespace OpenhamModem

/-- Pilot symbols are BPSK points `(±1, 0)`; exact integer pairs. -/
abbrev PilotSym := Int × Int

/-- OFDM configuration (`OfdmConfig`). -/
structure OfdmConfig where
  fft_size : Nat
  cp_length : Nat
  data_carriers : List Nat
  pilot_carriers : List Nat
  pilot_symbols : List PilotSym
  null_carriers : List Nat
  deriving Repr

namespace OfdmConfig

/-- `OfdmConfig::amateur_radio_64`: positive-frequency bins 1..31 carry
data except the pilots 5, 15, 25; DC (0) and Nyquist (32) are null. -/
def amateur_radio_64 : OfdmConfig :=
  { fft_size := 64
    cp_length := 16
    data_carriers :=
      (List.range' 1 31).filter (fun i => ¬(i = 5 ∨ i = 15 ∨ i = 25))
    pilot_carriers := [5, 15, 25]
    pilot_symbols := [(1, 0), (-1, 0), (1, 0), (-1, 0), (1, 0)]
    null_carriers := [0, 32] }

/-- `OfdmConfig::robust_128`: bins 1..52 and 75..126 carry data except
every multiple of 7, which is a pilot with alternating sign; DC and
the guard band 53..74 are null. -/
def robust_128 : OfdmConfig :=
  let pilots := (List.range' 1 52).filter (fun i => i % 7 = 0)
    ++ (List.range' 75 52).filter (fun i => i % 7 = 0)
  { fft_size := 128
    cp_length := 32
    data_carriers :=
      (List.range' 1 52).filter (fun i => i % 7 ≠ 0)
        ++ (List.range' 75 52).filter (fun i => i % 7 ≠ 0)
    pilot_carriers := pilots
    pilot_symbols :=
      pilots.map (fun i => if i / 7 % 2 = 0 then ((1 : Int), (0 : Int)) else (-1, 0))
    null_carriers := 0 :: List.range' 53 22 }

end OfdmConfig

/-- The BPSK demodulator state relevant to `demodulate`: the integer
samples-per-symbol count derived from the configuration and the
`is_sync` flag; the pulse shaper, phase and signal-quality fields do
not participate in `demodulate`. -/
structure BpskDemodState where
  samples_per_symbol : Nat
  is_sync : Bool
  deriving Repr

/-- One complex sample, rational-valued. -/
abbrev Sample := ℚ × ℚ

/-- The fixed sync byte sequence of `bpsk.rs` and `fsk.rs`. -/
def syncPattern : List Nat := [0x55, 0x55, 0x55, 0x55, 0xAA, 0xAA, 0x7E, 0x7E]

/-- The bitwise-inverted sync sequence of `fsk.rs` and
`openham-main.rs`. -/
def syncPatternInv : List Nat := [0xAA, 0xAA, 0xAA, 0xAA, 0x55, 0x55, 0x81, 0x81]

/-- First position of `needle` in `hay` (the linear `search` closures
of `bpsk.rs` and `openham-main.rs`). -/
def searchBytes (hay needle : List Nat) : Option Nat :=
  if needle.isPrefixOf hay then some 0
  else
    match hay with
    | [] => none
    | _ :: rest => (searchBytes rest needle).map (· + 1)

/-- Per-offset symbol integration of `BpskDemodulator::demodulate`:
sum each window of `sps` baseband values, threshold at zero for the
bit (`1` if positive), and accumulate `|acc|` as the stream strength. -/
def bpskSymbols (sps : Nat) (bb : List ℚ) : List Bool × ℚ :=
  if _h : sps ≤ bb.length ∧ 0 < sps then
    let acc := (bb.take sps).sum
    let rest := bpskSymbols sps (bb.drop sps)
    ((decide (0 < acc)) :: rest.1, |acc| + rest.2)
  else ([], 0)
termination_by bb.length
decreasing_by
  simp only [List.length_drop]
  omega

/-- Leading `0x00`/`0xFF` bytes are skipped before the sync search
(CW-tone artifacts). -/
def trimCount (bytes : List Nat) : Nat :=
  match bytes with
  | [] => 0
  | b :: rest => if b = 0x00 ∨ b = 0xFF then trimCount rest + 1 else 0

/-- Sync search of one BPSK candidate stream: search from the trimmed
start, requiring at least one full pattern in the stream. -/
def bpskFindSync (bytes : List Nat) : Option Nat :=
  let start := trimCount bytes
  if syncPattern.length ≤ bytes.length ∧ start + syncPattern.length ≤ bytes.length then
    (searchBytes (bytes.drop start) syncPattern).map (· + start)
  else none

/-- One candidate stream of `BpskDemodulator::demodulate` for a given
symbol-phase offset: packed bytes, integrated strength, and the sync
position if any. -/
def bpskCandidate (bb : List ℚ) (sps offset : Nat) :
    List Nat × ℚ × Option Nat :=
  let (bits, strength) := bpskSymbols sps (bb.drop offset)
  let bytes := bytesOfBits bits
  (bytes, strength, bpskFindSync bytes)

/-- Selection over offsets: the earliest sync position wins (ties to
the lower offset); with no sync anywhere, the strictly strongest
stream wins (ties to the lower offset). -/
def bpskDemodulate (lo : Nat → ℚ × ℚ) (st : BpskDemodState)
    (samples : List Sample) : BpskDemodState × List Nat :=
  let sps := st.samples_per_symbol
  if sps = 0 then (st, [])
  else
    let bb := samples.enum.map
      (fun p => p.2.1 * (lo p.1).1 + p.2.2 * (lo p.1).2)
    let cands := (List.range sps).map (bpskCandidate bb sps)
    let best := cands.enum.foldl
      (fun acc p =>
        match p.2.2.2 with
        | none => acc
        | some pos =>
          match acc with
          | none => some (p.1, pos)
          | some q => if pos < q.2 then some (p.1, pos) else acc)
      none
    match best with
    | some q => ({ st with is_sync := true }, (cands.getD q.1 ([], 0, none)).1)
    | none =>
      match cands with
      | [] => (st, [])
      | c0 :: restC =>
        let pick := restC.foldl
          (fun acc c => if acc.2.1 < c.2.1 then c else acc) c0
        ({ st with is_sync := true }, pick.1)

end OpenhamModem

namespace OpenhamModem

/-- FSK demodulator state (`FskDemodulator`): the accumulated sample
buffer, the `bit_buffer`/`bit_count` fields (never read by
`demodulate`), and the configured samples-per-symbol count.  The
sample type is abstract: `demodulate` only slices the buffer and
hands whole windows to the energy detector. -/
structure FskDemodState (α : Type) where
  samples_per_symbol : Nat
  buffer : List α
  bit_buffer : Nat
  bit_count : Nat

/-- Window slicing of `FskDemodulator::demodulate` (`while idx + sps <=
len`): one bit per consecutive window, decided by the non-coherent
energy comparison `bitOf` (`e_mark > e_space`). -/
def fskSymbols {α : Type} (bitOf : List α → Bool) (sps : Nat) (buf : List α) : List Bool :=
  if _h : sps ≤ buf.length ∧ 0 < sps then
    bitOf (buf.take sps) :: fskSymbols bitOf sps (buf.drop sps)
  else []
termination_by buf.length
decreasing_by
  simp only [List.length_drop]
  omega

/-- Sync search of `fsk.rs`: at each position try the direct pattern,
then the inverted one. -/
def fskFindSync (bytes : List Nat) : Option Nat :=
  if syncPattern.isPrefixOf bytes || syncPatternInv.isPrefixOf bytes then some 0
  else
    match bytes with
    | [] => none
    | _ :: rest => (fskFindSync rest).map (· + 1)

/-- Output computation of `FskDemodulator::demodulate` from the full
accumulated buffer: nothing below one symbol; otherwise one candidate
byte stream per offset, earliest sync wins, falling back to the
longest stream (`max_by_key` keeps the last maximum). -/
def fskOutput {α : Type} (bitOf : List α → Bool) (sps : Nat) (buffer : List α) :
    List Nat :=
  if sps = 0 ∨ buffer.length < sps then []
  else
    let cands := (List.range sps).map (fun off =>
      let bytes := bytesOfBits (fskSymbols bitOf sps (buffer.drop off))
      (bytes, fskFindSync bytes))
    let best := cands.enum.foldl
      (fun acc p =>
        match p.2.2 with
        | none => acc
        | some pos =>
          match acc with
          | none => some (p.1, pos)
          | some q => if pos < q.2 then some (p.1, pos) else acc)
      none
    match best with
    | some q => (cands.getD q.1 ([], none)).1
    | none =>
      match cands with
      | [] => []
      | c0 :: restC =>
        (restC.foldl
          (fun acc c => if acc.1.length ≤ c.1.length then c else acc) c0).1

/-- `FskDemodulator::demodulate`: append the new samples to the
buffer (which is never drained here), then rebuild the output from
the whole accumulated buffer.  The cleared-and-refilled `output`
vector is modelled by the returned byte list. -/
def fskDemodulate {α : Type} (bitOf : List α → Bool) (st : FskDemodState α)
    (samples : List α) : FskDemodState α × List Nat :=
  let buffer := st.buffer ++ samples
  ({ st with buffer := buffer }, fskOutput bitOf st.samples_per_symbol buffer)

/-- `FskDemodulator::reset`: clear the buffer and the bit-assembly
fields. -/
def fskReset {α : Type} (st : FskDemodState α) : FskDemodState α :=
  { st with buffer := [], bit_buffer := 0, bit_count := 0 }

end OpenhamModem

/-! ## Sync-preamble recovery (`crates/tools/src/bin/openham-main.rs`) -/

namespace OpenhamMain

/-- The TX sync preamble (`SYNC` in `extract_frame_data_any_alignment`,
identical to the modem-side pattern). -/
def SYNC : List Nat := OpenhamModem.syncPattern

/-- The bitwise-complemented preamble (`SYNC_INV`). -/
def SYNC_INV : List Nat := OpenhamModem.syncPatternInv

/-- Bits of one byte, least significant first (`for i in 0..8`). -/
def byteBitsLsb (b : Nat) : List Bool :=
  [b.testBit 0, b.testBit 1, b.testBit 2, b.testBit 3,
   b.testBit 4, b.testBit 5, b.testBit 6, b.testBit 7]

/-- LSB-first unpacking of a byte stream. -/
def bitsOfBytesLsb (data : List Nat) : List Bool :=
  data.flatMap byteBitsLsb

/-- LSB-first packing of up to eight bits (`val |= 1 << i`). -/
def byteOfBitsLsb (chunk : List Bool) : Nat :=
  go chunk 0
where
  go : List Bool → Nat → Nat
  | [], _ => 0
  | b :: rest, k => (if b then 1 <<< k else 0) ||| go rest (k + 1)

/-- LSB-first repacking, discarding a trailing partial chunk. -/
def bytesOfBitsFullLsb : List Bool → List Nat
  | b0 :: b1 :: b2 :: b3 :: b4 :: b5 :: b6 :: b7 :: rest =>
      byteOfBitsLsb [b0, b1, b2, b3, b4, b5, b6, b7] :: bytesOfBitsFullLsb rest
  | _ => []

/-- Body of the `for shift in 0..8` loop: repack the shifted bit
stream and search the four patterns in order; `continue` when fewer
than eight whole bytes remain. -/
def searchShift (bits : List Bool) (msb : Bool) (shift : Nat) : Option (List Nat) :=
  if bits.length ≤ shift then none
  else
    let aligned := bits.drop shift
    if aligned.length / 8 < 8 then none
    else
      let alignedBytes :=
        if msb then bytesOfBitsFull aligned else bytesOfBitsFullLsb aligned
      match OpenhamModem.searchBytes alignedBytes SYNC with
      | some pos => some (alignedBytes.drop (pos + 8))
      | none =>
        match OpenhamModem.searchBytes alignedBytes SYNC_INV with
        | some pos => some (alignedBytes.drop (pos + 8))
        | none =>
          match OpenhamModem.searchBytes alignedBytes [0x7E, 0x7E] with
          | some pos => some (alignedBytes.drop (pos + 2))
          | none =>
            match OpenhamModem.searchBytes alignedBytes [0x81, 0x81] with
            | some pos => some (alignedBytes.drop (pos + 2))
            | none => none

/-- First hit of `f` over a list of shifts.  The source's `break` when
`bits.len() <= shift` is equivalent to the `none` returned by
`searchShift` there, because the condition stays true for every
later shift. -/
def firstSome {β : Type} (f : Nat → Option β) : List Nat → Option β
  | [] => none
  | x :: rest =>
    match f x with
    | some v => some v
    | none => firstSome f rest

/-- One bit-order pass of `extract_frame_data_any_alignment`
(`try_search`). -/
def trySearch (data : List Nat) (msb : Bool) : Option (List Nat) :=
  let bits := if msb then bitsOfBytesMsb data else bitsOfBytesLsb data
  firstSome (searchShift bits msb) (List.range 8)

/-- `extract_frame_data_any_alignment`: MSB-first pass, then LSB-first
as fallback. -/
def extract_frame_data_any_alignment (data : List Nat) : Option (List Nat) :=
  match trySearch data true with
  | some v => some v
  | none => trySearch data false

/-- Bit-order reversal of one byte — the per-byte transformation named
by the spec's order-free recovery property. -/
def bitRevByte (b : Nat) : Nat :=
  byteOfBits (byteBitsMsb b).reverse

/-- Cyclic right-rotation of a whole byte stream by `k` bits — the
other transformation named by the property: the last `k` bits of the
stream wrap to the front, and byte boundaries are redrawn. -/
def rotateBitsRight (k : Nat) (data : List Nat) : List Nat :=
  let bits := bitsOfBytesMsb data
  bytesOfBitsFull (bits.drop (bits.length - k) ++ bits.take (bits.length - k))

end OpenhamMain

/-! ## Supporting lemmas -/

/-- Packing the eight MSB-first bits of a byte value below 256
reconstructs the byte. -/
theorem byteOfBits_byteBitsMsb : ∀ b < 256, byteOfBits (byteBitsMsb b) = b := by
  set_option maxRecDepth 4096 in decide

/-- Unpacking a packed 8-bit chunk reconstructs the chunk. -/
theorem byteBitsMsb_byteOfBits (b0 b1 b2 b3 b4 b5 b6 b7 : Bool) :
    byteBitsMsb (byteOfBits [b0, b1, b2, b3, b4, b5, b6, b7]) =
      [b0, b1, b2, b3, b4, b5, b6, b7] := by
  revert b0 b1 b2 b3 b4 b5 b6 b7
  decide

/-- Length of an MSB-first unpacking. -/
theorem bitsOfBytesMsb_length (l : List Nat) :
    (bitsOfBytesMsb l).length = 8 * l.length := by
  induction l with
  | nil => rfl
  | cons b rest ih =>
      simp only [bitsOfBytesMsb, List.flatMap_cons, List.length_append,
        List.length_cons] at *
      simp [byteBitsMsb, ih]
      omega

/-- MSB-first unpacking distributes over append. -/
theorem bitsOfBytesMsb_append (l1 l2 : List Nat) :
    bitsOfBytesMsb (l1 ++ l2) = bitsOfBytesMsb l1 ++ bitsOfBytesMsb l2 := by
  simp [bitsOfBytesMsb]

/-- Full-chunk repacking inverts MSB-first unpacking on byte values
below 256. -/
theorem bytesOfBitsFull_bitsOfBytesMsb (l : List Nat) (h : ∀ b ∈ l, b < 256) :
    bytesOfBitsFull (bitsOfBytesMsb l) = l := by
  induction l with
  | nil => rfl
  | cons b rest ih =>
      have hb : b < 256 := h b (List.mem_cons_self b rest)
      have hd : byteOfBits [b.testBit 7, b.testBit 6, b.testBit 5, b.testBit 4,
          b.testBit 3, b.testBit 2, b.testBit 1, b.testBit 0] = b :=
        byteOfBits_byteBitsMsb b hb
      have hstep : bitsOfBytesMsb (b :: rest) =
          b.testBit 7 :: b.testBit 6 :: b.testBit 5 :: b.testBit 4 ::
          b.testBit 3 :: b.testBit 2 :: b.testBit 1 :: b.testBit 0 ::
          bitsOfBytesMsb rest := rfl
      rw [hstep]
      show byteOfBits [b.testBit 7, b.testBit 6, b.testBit 5, b.testBit 4,
          b.testBit 3, b.testBit 2, b.testBit 1, b.testBit 0] ::
        bytesOfBitsFull (bitsOfBytesMsb rest) = b :: rest
      rw [hd, ih (fun x hx => h x (List.mem_cons_of_mem b hx))]

/-- Flipping one bit of a byte below 256 adds or subtracts the
corresponding power of two and stays below 256. -/
theorem xorFlipFact : ∀ b < 256, ∀ m < 8,
    ((b ^^^ (1 <<< m)) + (1 <<< m) = b ∨ (b ^^^ (1 <<< m)) = b + (1 <<< m)) ∧
    (b ^^^ (1 <<< m)) < 256 := by
  set_option maxRecDepth 4096 in decide

/-! ## Claim theorems: frame layer -/

section FrameClaims
open OpenhamFrame

/-- C2: for every `frame_type`, `sequence`, `flags` and payload of at
most 65535 bytes, `Frame::from_bytes (Frame::new(...).to_bytes())`
succeeds and returns a frame with identical header fields and
payload. -/
theorem frame_roundtrip (ft seq flags : Nat) (payload : List Nat)
    (hft : ft < 256) (hseq : seq < 65536) (hfl : flags < 256)
    (hp : payload.length ≤ 65535) :
    Frame.from_bytes (Frame.new ft seq payload flags).to_bytes =
      .ok (Frame.new ft seq payload flags) := by
  have h1 : payload.length % 65536 = payload.length := Nat.mod_eq_of_lt (by omega)
  have hft' : ft % 256 = ft := Nat.mod_eq_of_lt hft
  have hfl' : flags % 256 = flags := Nat.mod_eq_of_lt hfl
  simp only [Frame.new, FrameHeader.new, Frame.to_bytes, FrameHeader.to_bytes, be16,
    FrameHeader.calculate_checksum, Frame.from_bytes, FrameHeader.from_bytes,
    FrameHeader.validate_checksum, readU16, List.cons_append, List.nil_append,
    List.length_cons, List.take_succ_cons, List.take_zero, List.getD, List.get?,
    List.drop_succ_cons, List.drop_zero, h1, hft', hfl']
  have hseq2 : seq / 256 % 256 * 256 + seq % 256 = seq := by omega
  have hpl2 : payload.length / 256 % 256 * 256 + payload.length % 256 =
      payload.length := by omega
  have hck2 : (65535 - (ft + seq + payload.length + flags) % 65536) / 256 % 256 * 256 +
      (65535 - (ft + seq + payload.length + flags) % 65536) % 256 =
      65535 - (ft + seq + payload.length + flags) % 65536 := by omega
  simp only [Option.getD_some, hseq2, hpl2, hck2, List.length_nil]
  rw [if_neg (by omega)]
  simp only [beq_self_eq_true, if_true, show ¬ (0+1+1+1+1+1+1+1+1 < 8) by omega,
    if_false]
  rw [if_neg (by omega)]
  simp [List.take_length]

/-- Witness for C2 at a concrete frame. -/
theorem frame_roundtrip_witness :
    Frame.from_bytes (Frame.new 1 42 [104, 105] 0).to_bytes =
      .ok (Frame.new 1 42 [104, 105] 0) :=
  frame_roundtrip 1 42 0 [104, 105] (by norm_num) (by norm_num) (by norm_num)
    (by norm_num)

/-- C8: a payload longer than 65535 bytes is accepted by `Frame::new`
without error, but the stored `payload_length` is the length modulo
2^16, so it no longer equals the payload size and parsing the
serialized frame yields a truncated payload, never the original. -/
theorem frame_oversized_payload (ft seq flags : Nat) (payload : List Nat)
    (hft : ft < 256) (hseq : seq < 65536) (hfl : flags < 256)
    (hp : 65535 < payload.length) :
    (Frame.new ft seq payload flags).header.payload_length = payload.length % 65536 ∧
    payload.length % 65536 ≠ payload.length ∧
    Frame.from_bytes (Frame.new ft seq payload flags).to_bytes =
      .ok { header := (Frame.new ft seq payload flags).header
            payload := payload.take (payload.length % 65536) } ∧
    payload.take (payload.length % 65536) ≠ payload := by
  have hft' : ft % 256 = ft := Nat.mod_eq_of_lt hft
  have hfl' : flags % 256 = flags := Nat.mod_eq_of_lt hfl
  refine ⟨rfl, by omega, ?_, ?_⟩
  · simp only [Frame.new, FrameHeader.new, Frame.to_bytes, FrameHeader.to_bytes, be16,
      FrameHeader.calculate_checksum, Frame.from_bytes, FrameHeader.from_bytes,
      FrameHeader.validate_checksum, readU16, List.cons_append, List.nil_append,
      List.length_cons, List.take_succ_cons, List.take_zero, List.getD, List.get?,
      List.drop_succ_cons, List.drop_zero, hft', hfl']
    have hseq2 : seq / 256 % 256 * 256 + seq % 256 = seq := by omega
    have hpl2 : payload.length % 65536 / 256 % 256 * 256 + payload.length % 65536 % 256 =
        payload.length % 65536 := by omega
    have hck2 : (65535 - (ft + seq + payload.length % 65536 + flags) % 65536) / 256 % 256 * 256 +
        (65535 - (ft + seq + payload.length % 65536 + flags) % 65536) % 256 =
        65535 - (ft + seq + payload.length % 65536 + flags) % 65536 := by omega
    simp only [Option.getD_some, hseq2, hpl2, hck2, List.length_nil]
    rw [if_neg (by omega)]
    simp only [beq_self_eq_true, if_true, show ¬ (0+1+1+1+1+1+1+1+1 < 8) by omega,
      if_false]
    rw [if_neg (by omega)]
  · intro heq
    have := congrArg List.length heq
    simp [List.length_take] at this
    omega

/-- Witness for C8 at a 65536-byte payload. -/
theorem frame_oversized_payload_witness :
    (Frame.new 1 0 (List.replicate 65536 7) 0).header.payload_length =
      (List.replicate 65536 7).length % 65536 ∧
    (List.replicate 65536 7).length % 65536 ≠ (List.replicate 65536 7).length ∧
    Frame.from_bytes (Frame.new 1 0 (List.replicate 65536 7) 0).to_bytes =
      .ok { header := (Frame.new 1 0 (List.replicate 65536 7) 0).header
            payload := (List.replicate 65536 7).take ((List.replicate 65536 7).length % 65536) } ∧
    (List.replicate 65536 7).take ((List.replicate 65536 7).length % 65536) ≠
      List.replicate 65536 7 :=
  frame_oversized_payload 1 0 0 (List.replicate 65536 7) (by norm_num) (by norm_num)
    (by norm_num) (by simp only [List.length_replicate]; omega)

/-- C4: flipping any single bit among the first six bytes (bit
positions 0–47) of a serialized frame makes `Frame::from_bytes` fail
with the `InvalidFormat` header-checksum error. -/
theorem frame_bitflip_rejected (ft seq flags : Nat) (payload : List Nat) (k : Nat)
    (hft : ft < 256) (hseq : seq < 65536) (hfl : flags < 256) (hk : k < 48) :
    Frame.from_bytes (flipBit k (Frame.new ft seq payload flags).to_bytes) =
      .error (.InvalidFormat "Header checksum mismatch") := by
  have hft' : ft % 256 = ft := Nat.mod_eq_of_lt hft
  have hfl' : flags % 256 = flags := Nat.mod_eq_of_lt hfl
  have hm : 7 - k % 8 < 8 := by omega
  have hsh : (1 : Nat) <<< (7 - k % 8) = 2 ^ (7 - k % 8) := by
    simp [Nat.shiftLeft_eq]
  have hub : (2:Nat) ^ (7 - k % 8) ≤ 128 := by
    calc (2:Nat) ^ (7 - k % 8) ≤ 2 ^ 7 := Nat.pow_le_pow_right (by norm_num) (by omega)
    _ = 128 := by norm_num
  have hlb : (1:Nat) ≤ 2 ^ (7 - k % 8) := Nat.one_le_two_pow
  have hseq2 : seq / 256 % 256 * 256 + seq % 256 = seq := by omega
  have hpl2 : payload.length % 65536 / 256 % 256 * 256 + payload.length % 65536 % 256 =
      payload.length % 65536 := by omega
  have hck2 : (65535 - (ft + seq + payload.length % 65536 + flags) % 65536) / 256 % 256 * 256 +
      (65535 - (ft + seq + payload.length % 65536 + flags) % 65536) % 256 =
      65535 - (ft + seq + payload.length % 65536 + flags) % 65536 := by omega
  have hi : k / 8 = 0 ∨ k / 8 = 1 ∨ k / 8 = 2 ∨ k / 8 = 3 ∨ k / 8 = 4 ∨ k / 8 = 5 := by
    omega
  rcases hi with hdiv | hdiv | hdiv | hdiv | hdiv | hdiv
  case inl =>
    obtain ⟨hx, hxlt⟩ := xorFlipFact ft hft (7 - k % 8) hm
    simp only [Frame.new, FrameHeader.new, Frame.to_bytes, FrameHeader.to_bytes, be16,
      FrameHeader.calculate_checksum, List.cons_append, List.nil_append, hft', hfl',
      flipBit, hdiv, List.set_cons_succ, List.set_cons_zero,
      List.getD_cons_succ, List.getD_cons_zero]
    simp only [Frame.from_bytes, FrameHeader.from_bytes,
      FrameHeader.validate_checksum, FrameHeader.calculate_checksum, readU16,
      List.length_cons, List.take_succ_cons, List.take_zero, List.getD, List.get?,
      List.length_set, List.length_nil]
    rw [if_neg (by omega)]
    rw [if_neg (by omega)]
    rw [if_neg ?hne0]
    case hne0 =>
      simp only [Option.getD_some, beq_iff_eq, hseq2, hpl2, hck2]
      rw [hsh] at hx hxlt
      rw [hsh]
      intro heq
      omega
  case inr.inl =>
    obtain ⟨hx, hxlt⟩ := xorFlipFact (seq / 256 % 256) (by omega) (7 - k % 8) hm
    simp only [Frame.new, FrameHeader.new, Frame.to_bytes, FrameHeader.to_bytes, be16,
      FrameHeader.calculate_checksum, List.cons_append, List.nil_append, hft', hfl',
      flipBit, hdiv, List.set_cons_succ, List.set_cons_zero,
      List.getD_cons_succ, List.getD_cons_zero]
    simp only [Frame.from_bytes, FrameHeader.from_bytes,
      FrameHeader.validate_checksum, FrameHeader.calculate_checksum, readU16,
      List.length_cons, List.take_succ_cons, List.take_zero, List.getD, List.get?,
      List.length_set, List.length_nil]
    rw [if_neg (by omega)]
    rw [if_neg (by omega)]
    rw [if_neg ?hne1]
    case hne1 =>
      simp only [Option.getD_some, beq_iff_eq, hseq2, hpl2, hck2]
      rw [hsh] at hx hxlt
      rw [hsh]
      intro heq
      omega
  case inr.inr.inl =>
    obtain ⟨hx, hxlt⟩ := xorFlipFact (seq % 256) (by omega) (7 - k % 8) hm
    simp only [Frame.new, FrameHeader.new, Frame.to_bytes, FrameHeader.to_bytes, be16,
      FrameHeader.calculate_checksum, List.cons_append, List.nil_append, hft', hfl',
      flipBit, hdiv, List.set_cons_succ, List.set_cons_zero,
      List.getD_cons_succ, List.getD_cons_zero]
    simp only [Frame.from_bytes, FrameHeader.from_bytes,
      FrameHeader.validate_checksum, FrameHeader.calculate_checksum, readU16,
      List.length_cons, List.take_succ_cons, List.take_zero, List.getD, List.get?,
      List.length_set, List.length_nil]
    rw [if_neg (by omega)]
    rw [if_neg (by omega)]
    rw [if_neg ?hne2]
    case hne2 =>
      simp only [Option.getD_some, beq_iff_eq, hseq2, hpl2, hck2]
      rw [hsh] at hx hxlt
      rw [hsh]
      intro heq
      omega
  case inr.inr.inr.inl =>
    obtain ⟨hx, hxlt⟩ := xorFlipFact (payload.length % 65536 / 256 % 256) (by omega)
      (7 - k % 8) hm
    simp only [Frame.new, FrameHeader.new, Frame.to_bytes, FrameHeader.to_bytes, be16,
      FrameHeader.calculate_checksum, List.cons_append, List.nil_append, hft', hfl',
      flipBit, hdiv, List.set_cons_succ, List.set_cons_zero,
      List.getD_cons_succ, List.getD_cons_zero]
    simp only [Frame.from_bytes, FrameHeader.from_bytes,
      FrameHeader.validate_checksum, FrameHeader.calculate_checksum, readU16,
      List.length_cons, List.take_succ_cons, List.take_zero, List.getD, List.get?,
      List.length_set, List.length_nil]
    rw [if_neg (by omega)]
    rw [if_neg (by omega)]
    rw [if_neg ?hne3]
    case hne3 =>
      simp only [Option.getD_some, beq_iff_eq, hseq2, hpl2, hck2]
      rw [hsh] at hx hxlt
      rw [hsh]
      intro heq
      omega
  case inr.inr.inr.inr.inl =>
    obtain ⟨hx, hxlt⟩ := xorFlipFact (payload.length % 65536 % 256) (by omega)
      (7 - k % 8) hm
    simp only [Frame.new, FrameHeader.new, Frame.to_bytes, FrameHeader.to_bytes, be16,
      FrameHeader.calculate_checksum, List.cons_append, List.nil_append, hft', hfl',
      flipBit, hdiv, List.set_cons_succ, List.set_cons_zero,
      List.getD_cons_succ, List.getD_cons_zero]
    simp only [Frame.from_bytes, FrameHeader.from_bytes,
      FrameHeader.validate_checksum, FrameHeader.calculate_checksum, readU16,
      List.length_cons, List.take_succ_cons, List.take_zero, List.getD, List.get?,
      List.length_set, List.length_nil]
    rw [if_neg (by omega)]
    rw [if_neg (by omega)]
    rw [if_neg ?hne4]
    case hne4 =>
      simp only [Option.getD_some, beq_iff_eq, hseq2, hpl2, hck2]
      rw [hsh] at hx hxlt
      rw [hsh]
      intro heq
      omega
  case inr.inr.inr.inr.inr =>
    obtain ⟨hx, hxlt⟩ := xorFlipFact flags hfl (7 - k % 8) hm
    simp only [Frame.new, FrameHeader.new, Frame.to_bytes, FrameHeader.to_bytes, be16,
      FrameHeader.calculate_checksum, List.cons_append, List.nil_append, hft', hfl',
      flipBit, hdiv, List.set_cons_succ, List.set_cons_zero,
      List.getD_cons_succ, List.getD_cons_zero]
    simp only [Frame.from_bytes, FrameHeader.from_bytes,
      FrameHeader.validate_checksum, FrameHeader.calculate_checksum, readU16,
      List.length_cons, List.take_succ_cons, List.take_zero, List.getD, List.get?,
      List.length_set, List.length_nil]
    rw [if_neg (by omega)]
    rw [if_neg (by omega)]
    rw [if_neg ?hne5]
    case hne5 =>
      simp only [Option.getD_some, beq_iff_eq, hseq2, hpl2, hck2]
      rw [hsh] at hx hxlt
      rw [hsh]
      intro heq
      omega

/-- Witness for C4: a flip of bit 13 (a `sequence` bit) is rejected. -/
theorem frame_bitflip_rejected_witness :
    Frame.from_bytes (flipBit 13 (Frame.new 1 42 [7, 9] 0).to_bytes) =
      .error (.InvalidFormat "Header checksum mismatch") :=
  frame_bitflip_rejected 1 42 0 [7, 9] 13 (by norm_num) (by norm_num) (by norm_num)
    (by norm_num)

end FrameClaims

/-! ## Claim theorems: OFDM carrier plans -/

section OfdmClaims
open OpenhamModem OpenhamModem.OfdmConfig

/-- C5 counterexample: the three carrier sets do not cover every bin in
`[0, fft_size-1]`: bin 33 of `amateur_radio_64` (the first
negative-frequency image bin) and bin 127 of `robust_128` belong to
none of the sets. -/
theorem ofdm_cover_counterexample :
    (33 < amateur_radio_64.fft_size ∧
      33 ∉ amateur_radio_64.data_carriers ∧
      33 ∉ amateur_radio_64.pilot_carriers ∧
      33 ∉ amateur_radio_64.null_carriers) ∧
    (127 < robust_128.fft_size ∧
      127 ∉ robust_128.data_carriers ∧
      127 ∉ robust_128.pilot_carriers ∧
      127 ∉ robust_128.null_carriers) := by
  decide

/-- C5 (amended): for both provided constructors the sets
`data_carriers`, `pilot_carriers` and `null_carriers` are pairwise
disjoint, but their union covers exactly the bins `[0, 32]` (for
`amateur_radio_64`, fft 64) and `[0, 126]` (for `robust_128`, fft
128) — every bin at or below the mirrored spectrum boundary, not
every bin in `[0, fft_size-1]`. -/
theorem ofdm_carrier_partition :
    ((∀ i ∈ amateur_radio_64.data_carriers, i ∉ amateur_radio_64.pilot_carriers) ∧
      (∀ i ∈ amateur_radio_64.data_carriers, i ∉ amateur_radio_64.null_carriers) ∧
      (∀ i ∈ amateur_radio_64.pilot_carriers, i ∉ amateur_radio_64.null_carriers) ∧
      ∀ i < amateur_radio_64.fft_size,
        ((i ∈ amateur_radio_64.data_carriers ∨ i ∈ amateur_radio_64.pilot_carriers ∨
          i ∈ amateur_radio_64.null_carriers) ↔ i ≤ 32)) ∧
    ((∀ i ∈ robust_128.data_carriers, i ∉ robust_128.pilot_carriers) ∧
      (∀ i ∈ robust_128.data_carriers, i ∉ robust_128.null_carriers) ∧
      (∀ i ∈ robust_128.pilot_carriers, i ∉ robust_128.null_carriers) ∧
      ∀ i < robust_128.fft_size,
        ((i ∈ robust_128.data_carriers ∨ i ∈ robust_128.pilot_carriers ∨
          i ∈ robust_128.null_carriers) ↔ i ≤ 126)) := by
  set_option maxRecDepth 8192 in decide

end OfdmClaims

/-! ## Claim theorems: sync-preamble recovery -/

section SyncClaims
open OpenhamMain

/-- A needle sits at position 0 of any byte list it prefixes. -/
theorem searchBytes_of_prefix (needle hay : List Nat) :
    OpenhamModem.searchBytes (needle ++ hay) needle = some 0 := by
  have h : needle.isPrefixOf (needle ++ hay) = true := by
    rw [List.isPrefixOf_iff_prefix]
    exact List.prefix_append needle hay
  unfold OpenhamModem.searchBytes
  simp [h]

/-- C3 (amended): on the untransformed TX byte stream the search finds
the preamble immediately and returns exactly the bytes after it, so
the successor byte is `S[8]`.  (The transformed cases are refuted by
`sync_search_transform_counterexample`.) -/
theorem sync_search_after_preamble (rest : List Nat) (hb : ∀ b ∈ rest, b < 256) :
    extract_frame_data_any_alignment (SYNC ++ rest) = some rest := by
  have hall : ∀ b ∈ SYNC ++ rest, b < 256 := by
    intro b hbm
    rcases List.mem_append.mp hbm with h | h
    · have hs : ∀ x ∈ SYNC, x < 256 := by decide
      exact hs b h
    · exact hb b h
  have hlen : (bitsOfBytesMsb (SYNC ++ rest)).length = 64 + 8 * rest.length := by
    rw [bitsOfBytesMsb_length]
    simp [SYNC, OpenhamModem.syncPattern]
    omega
  have hbytes : bytesOfBitsFull (bitsOfBytesMsb (SYNC ++ rest)) = SYNC ++ rest :=
    bytesOfBitsFull_bitsOfBytesMsb _ hall
  have h0 : searchShift (bitsOfBytesMsb (SYNC ++ rest)) true 0 = some rest := by
    unfold searchShift
    rw [if_neg (by omega)]
    simp only [List.drop_zero, if_true]
    rw [if_neg (by rw [hlen]; omega)]
    rw [hbytes, searchBytes_of_prefix]
    show some ((SYNC ++ rest).drop 8) = some rest
    rw [show (8 : Nat) = SYNC.length from rfl, List.drop_left]
  unfold extract_frame_data_any_alignment trySearch
  rw [show (List.range 8) = [0, 1, 2, 3, 4, 5, 6, 7] from rfl]
  simp only [if_true, firstSome, h0]

/-- Witness for C3 at a concrete one-byte frame body. -/
theorem sync_search_after_preamble_witness :
    extract_frame_data_any_alignment (SYNC ++ [0x42]) = some [0x42] :=
  sync_search_after_preamble [0x42] (by decide)

/-- C3 counterexample: the recovery is not transformation-free.  Under
per-byte bit-order reversal of `S = SYNC ++ [0x01]` the search
matches the partial flag `7E 7E` inside the reversed preamble and
returns successor byte `0x80 ≠ S[8] = 0x01`; under a 1-bit cyclic
right shift of `S = SYNC ++ [0xFC, 0xFD, 0x00]` it matches a spurious
`7E 7E` made by the shifted frame bytes and returns `0x80 ≠ S[8] =
0xFC`. -/
theorem sync_search_transform_counterexample :
    ((SYNC ++ [0x01]).map bitRevByte =
        [0xAA, 0xAA, 0xAA, 0xAA, 0x55, 0x55, 0x7E, 0x7E, 0x80] ∧
      extract_frame_data_any_alignment ((SYNC ++ [0x01]).map bitRevByte) =
        some [0x80] ∧
      (0x80 : Nat) ≠ 0x01) ∧
    (rotateBitsRight 1 (SYNC ++ [0xFC, 0xFD, 0x00]) =
        [0x2A, 0xAA, 0xAA, 0xAA, 0xD5, 0x55, 0x3F, 0x3F, 0x7E, 0x7E, 0x80] ∧
      extract_frame_data_any_alignment
        (rotateBitsRight 1 (SYNC ++ [0xFC, 0xFD, 0x00])) = some [0x80] ∧
      (0x80 : Nat) ≠ 0xFC) := by
  decide

end SyncClaims

/-! ## Claim theorems: BPSK and FSK demodulators -/

section ModemClaims
open OpenhamModem

/-- C7: whenever the configured samples-per-symbol count is at least 1,
`BpskDemodulator::demodulate` leaves `is_sync` true after every call,
on any input (empty or pure noise included): either a sync match or
the energy fallback selects a candidate, and both paths set the
flag.  The local-oscillator values are abstracted by `lo`, so the
statement holds for the actual `cos`/`sin` mixing as an instance. -/
theorem bpsk_demodulate_sets_sync (lo : Nat → ℚ × ℚ) (st : BpskDemodState)
    (samples : List Sample) (h : 1 ≤ st.samples_per_symbol) :
    ((bpskDemodulate lo st samples).1).is_sync = true := by
  unfold bpskDemodulate
  rw [if_neg (by omega)]
  simp only []
  split
  · rfl
  · split
    · next heq =>
        exfalso
        rw [List.map_eq_nil_iff, List.range_eq_nil] at heq
        omega
    · rfl

/-- Witness for C7: one symbol per sample, empty input. -/
theorem bpsk_demodulate_sets_sync_witness :
    ((bpskDemodulate (fun _ => (0, 0)) ⟨1, false⟩ []).1).is_sync = true :=
  bpsk_demodulate_sets_sync (fun _ => (0, 0)) ⟨1, false⟩ [] (by norm_num)

/-- C10: `FskDemodulator::demodulate` appends the supplied samples to
the internal buffer and never drains it; the returned (cleared and
refilled) output is a function of the accumulated buffer alone, so a
second call produces exactly what one call on a reset demodulator
fed the whole history would; only `reset` empties the buffer.  The
per-window mark/space energy decision is abstracted by `bitOf`. -/
theorem fsk_demodulate_accumulates {α : Type} (bitOf : List α → Bool)
    (st : FskDemodState α) (s1 s2 : List α) :
    (fskDemodulate bitOf st s1).1.buffer = st.buffer ++ s1 ∧
    (fskDemodulate bitOf st s1).2 =
      fskOutput bitOf st.samples_per_symbol (st.buffer ++ s1) ∧
    (fskDemodulate bitOf (fskDemodulate bitOf st s1).1 s2).2 =
      (fskDemodulate bitOf (fskReset st) (st.buffer ++ s1 ++ s2)).2 ∧
    (fskReset st).buffer = [] := by
  refine ⟨rfl, rfl, ?_, rfl⟩
  show fskOutput bitOf st.samples_per_symbol ((st.buffer ++ s1) ++ s2) =
    fskOutput bitOf st.samples_per_symbol ([] ++ (st.buffer ++ s1 ++ s2))
  rw [List.nil_append, List.append_assoc]

end ModemClaims

/-! ## Claim theorems: Huffman codec -/

section HuffmanClaims
open OpenhamCodecs

/-- Length of the byte packing: the bit count rounded up to a whole
byte. -/

theorem bytesOfBits_length (l : List Bool) :
    (bytesOfBits l).length = (l.length + 7) / 8 := by
  induction l using bytesOfBits.induct with
  | case1 => rfl
  | case2 b0 b1 b2 b3 b4 b5 b6 b7 rest ih =>
      simp only [bytesOfBits, List.length_cons, ih]
      omega
  | case3 l h1 h2 =>
      rcases l with _ | ⟨a, _ | ⟨b, _ | ⟨c, _ | ⟨d, _ | ⟨e, _ | ⟨f, _ | ⟨g, _ | ⟨h, t⟩⟩⟩⟩⟩⟩⟩⟩
      · exact absurd rfl h1
      · simp [bytesOfBits]
      · simp [bytesOfBits]
      · simp [bytesOfBits]
      · simp [bytesOfBits]
      · simp [bytesOfBits]
      · simp [bytesOfBits]
      · simp [bytesOfBits]
      · exact absurd rfl (h2 a b c d e f g h t)

/-- Unpacking the packing of a whole-byte bit list is the identity. -/
theorem bitsOfBytesMsb_bytesOfBits (l : List Bool) (h : l.length % 8 = 0) :
    bitsOfBytesMsb (bytesOfBits l) = l := by
  induction l using bytesOfBits.induct with
  | case1 => rfl
  | case2 b0 b1 b2 b3 b4 b5 b6 b7 rest ih =>
      have hr : rest.length % 8 = 0 := by
        simp only [List.length_cons] at h
        omega
      have hstep : bitsOfBytesMsb (bytesOfBits (b0 :: b1 :: b2 :: b3 :: b4 :: b5 :: b6 :: b7 :: rest)) =
          byteBitsMsb (byteOfBits [b0, b1, b2, b3, b4, b5, b6, b7]) ++
            bitsOfBytesMsb (bytesOfBits rest) := rfl
      rw [hstep, byteBitsMsb_byteOfBits, ih hr]
      rfl
  | case3 l h1 h2 =>
      exfalso
      rcases l with _ | ⟨a, _ | ⟨b, _ | ⟨c, _ | ⟨d, _ | ⟨e, _ | ⟨f, _ | ⟨g, _ | ⟨h8, t⟩⟩⟩⟩⟩⟩⟩⟩
      · exact h1 rfl
      all_goals first
        | (exact h2 _ _ _ _ _ _ _ _ _ rfl)
        | simp_all

/-- The 16 header bits split into the two big-endian header bytes. -/
theorem word16BitsMsb_split (n : Nat) :
    word16BitsMsb n = byteBitsMsb (n / 256) ++ byteBitsMsb (n % 256) := by
  have hdiv : ∀ i, (n / 256).testBit i = n.testBit (8 + i) := by
    intro i
    rw [show n / 256 = n >>> 8 by simp [Nat.shiftRight_eq_div_pow]]
    exact Nat.testBit_shiftRight ..
  have hmod : ∀ i, i < 8 → (n % 256).testBit i = n.testBit i := by
    intro i hi
    rw [show (256 : Nat) = 2 ^ 8 from rfl, Nat.testBit_mod_two_pow]
    simp [hi]
  simp only [word16BitsMsb, byteBitsMsb, List.cons_append, List.nil_append,
    hdiv, hmod, List.cons.injEq]
  norm_num [hmod]

/-- Packing a byte's bits followed by more bits emits that byte
first. -/
theorem bytesOfBits_byte_cons (b : Nat) (hb : b < 256) (rest : List Bool) :
    bytesOfBits (byteBitsMsb b ++ rest) = b :: bytesOfBits rest := by
  have hstep : bytesOfBits (byteBitsMsb b ++ rest) =
      byteOfBits (byteBitsMsb b) :: bytesOfBits rest := rfl
  rw [hstep, byteOfBits_byteBitsMsb b hb]

/-- C6: whenever the payload bit count fits in 16 bits, the first two
bytes of `HuffmanCodec::encode`'s output hold that count big-endian,
the output length is the bit count (plus header) rounded up to a
byte boundary, and the unpacked MSB-first bit stream is exactly
header bits, payload bits, then zero padding.  (For longer payloads
the 16-bit count wraps: `huffman_wire_format_counterexample`.) -/
theorem huffman_wire_format (text : List Char)
    (hL : (encodeBits text).length ≤ 65535) :
    readU16 ((encode text).getD 0 0) ((encode text).getD 1 0) =
      (encodeBits text).length ∧
    (encode text).length = (16 + (encodeBits text).length + 7) / 8 ∧
    bitsOfBytesMsb (encode text) =
      word16BitsMsb (encodeBits text).length ++ encodeBits text ++
        List.replicate ((8 - (16 + (encodeBits text).length) % 8) % 8) false := by
  have hv : (encodeBits text).length % 65536 = (encodeBits text).length :=
    Nat.mod_eq_of_lt (by omega)
  have hform : encode text =
      bytesOfBits (word16BitsMsb (encodeBits text).length ++ encodeBits text ++
        List.replicate ((8 - (16 + (encodeBits text).length) % 8) % 8) false) := by
    simp only [encode, hv, List.length_append]
    rw [show (word16BitsMsb (encodeBits text).length).length = 16 from rfl]
  refine ⟨?_, ?_, ?_⟩
  · rw [hform, word16BitsMsb_split, List.append_assoc, List.append_assoc,
      bytesOfBits_byte_cons _ (by omega),
      bytesOfBits_byte_cons _ (by omega)]
    simp only [List.getD_cons_zero, List.getD_cons_succ, readU16]
    omega
  · rw [hform, bytesOfBits_length]
    simp only [List.length_append, List.length_replicate]
    rw [show (word16BitsMsb (encodeBits text).length).length = 16 from rfl]
    omega
  · rw [hform, bitsOfBytesMsb_bytesOfBits]
    simp only [List.length_append, List.length_replicate]
    rw [show (word16BitsMsb (encodeBits text).length).length = 16 from rfl]
    omega

/-- A case-insensitive prefix match fails when the first characters
differ. -/
theorem isPrefixIC_head_false (t : Char) (ts : List Char) (c : Char) (cs : List Char)
    (h : eqIgnoreAsciiCase c t = false) : isPrefixIC (t :: ts) (c :: cs) = false := by
  simp [isPrefixIC, h]

/-- The token matcher yields nothing when no token prefix-matches. -/
theorem tryToken_none (prev : Option Char) (s : List Char) :
    ∀ L, (∀ tok ∈ L, isPrefixIC tok.toList s = false) → tryToken prev s L = none := by
  intro L
  induction L with
  | nil => intro _; rfl
  | cons tok rest ih =>
      intro h
      have h0 := h tok (List.mem_cons_self tok rest)
      simp only [tryToken, h0, Bool.false_eq_true, if_false]
      exact ih (fun t ht => h t (List.mem_cons_of_mem _ ht))

/-- No ham token matches at a space character. -/
theorem tryToken_space (prev : Option Char) (rest : List Char) :
    tryToken prev (' ' :: rest) token_list = none := by
  apply tryToken_none
  intro tok htok
  have htl : token_list = ["QRZ", "QRM", "QRO", "QRP", "QRS", "QRT", "QRB", "QSB",
      "QSL", "QSO", "QSY", "QTH", "CQ", "DE", "BK", "KN", "AR", "SK", "YL", "OM",
      "73", "K"] := by rfl
  rw [htl] at htok
  fin_cases htok <;> exact isPrefixIC_head_false _ _ _ _ (by decide)

/-- Encoding a space emits its four-zero-bit code and moves on. -/
theorem encodeLoop_space (fuel : Nat) (prev : Option Char) (rest : List Char) :
    encodeLoop (fuel + 1) prev (' ' :: rest) =
      false :: false :: false :: false :: encodeLoop fuel (some ' ') rest := by
  have hsp : lookupCode ' ' = some [false, false, false, false] := by rfl
  simp only [encodeLoop, tryToken_space, hsp]
  rfl

/-- A run of `n` spaces encodes to `4n` zero bits. -/
theorem encodeLoop_replicate_space (n : Nat) (prev : Option Char) :
    encodeLoop n prev (List.replicate n ' ') = List.replicate (4 * n) false := by
  induction n generalizing prev with
  | zero => rfl
  | succ m ih =>
      rw [List.replicate_succ, encodeLoop_space, ih]
      rw [show 4 * (m + 1) = 4 + 4 * m by ring, List.replicate_add]
      rfl

/-- All-zero bit lists pack to all-zero bytes. -/
theorem bytesOfBits_replicate_false (k : Nat) :
    bytesOfBits (List.replicate (8 * k) false) = List.replicate k 0 := by
  induction k with
  | zero => rfl
  | succ m ih =>
      rw [show 8 * (m + 1) = 8 + 8 * m by ring, List.replicate_add]
      have hstep : bytesOfBits (List.replicate 8 false ++ List.replicate (8 * m) false) =
          byteOfBits [false, false, false, false, false, false, false, false] ::
            bytesOfBits (List.replicate (8 * m) false) := rfl
      rw [hstep, ih]
      rfl

/-- C6 counterexample: at 16384 spaces the payload is 65536 bits, the
`bits.len() as u16` header wraps to zero, and the first two output
bytes read back 0 instead of the actual payload bit count. -/
theorem huffman_wire_format_counterexample :
    (encodeBits (List.replicate 16384 ' ')).length = 65536 ∧
    encode (List.replicate 16384 ' ') = List.replicate 8194 0 ∧
    readU16 ((encode (List.replicate 16384 ' ')).getD 0 0)
      ((encode (List.replicate 16384 ' ')).getD 1 0) = 0 := by
  have hbits : encodeBits (List.replicate 16384 ' ') = List.replicate 65536 false := by
    unfold encodeBits
    rw [List.length_replicate]
    rw [encodeLoop_replicate_space 16384 none]
  have henc : encode (List.replicate 16384 ' ') = List.replicate 8194 0 := by
    unfold encode
    rw [hbits]
    dsimp only
    rw [List.length_replicate, show (65536 : Nat) % 65536 = 0 from rfl,
      show word16BitsMsb 0 = List.replicate 16 false from rfl,
      show List.replicate 16 false ++ List.replicate 65536 false =
        List.replicate 65552 false from by rw [← List.replicate_add],
      List.length_replicate,
      show ((8 - 65552 % 8) % 8) = 0 from rfl, List.replicate_zero, List.append_nil,
      show (65552 : Nat) = 8 * 8194 from rfl, bytesOfBits_replicate_false]
  refine ⟨by rw [hbits, List.length_replicate], henc, ?_⟩
  rw [henc, show List.replicate 8194 (0 : Nat) = 0 :: 0 :: List.replicate 8192 0 from rfl]
  rfl

/-- The decoder's MSB-first bit fold from an arbitrary accumulator. -/
theorem foldBits_from_acc (l : List Bool) :
    ∀ acc : Nat, l.foldl (fun a b => 2 * a + (if b then 1 else 0)) acc =
      acc * 2 ^ l.length + l.foldl (fun a b => 2 * a + (if b then 1 else 0)) 0 := by
  induction l with
  | nil => intro acc; simp
  | cons b t ih =>
      intro acc
      simp only [List.foldl_cons, List.length_cons]
      rw [ih (2 * acc + if b then 1 else 0), ih (2 * 0 + if b then 1 else 0)]
      ring

/-- The bit fold of `n` bits is below `2 ^ n`. -/
theorem foldBitsNat_lt (l : List Bool) : foldBitsNat l < 2 ^ l.length := by
  induction l with
  | nil => simp [foldBitsNat]
  | cons b t ih =>
      unfold foldBitsNat at *
      simp only [List.foldl_cons, List.length_cons]
      rw [foldBits_from_acc]
      simp only [Nat.mul_zero, Nat.zero_add]
      have hb : (if b then 1 else 0) ≤ 1 := by split <;> omega
      have h2 : (2 : Nat) ^ (t.length + 1) = 2 ^ t.length + 2 ^ t.length := by ring
      have hp : 0 < (2 : Nat) ^ t.length := Nat.pos_pow_of_pos _ (by norm_num)
      rw [h2]
      have := Nat.mul_le_mul_right (2 ^ t.length) hb
      omega

/-- Folding the eight bits of a byte value reconstructs the byte. -/
theorem foldBits_byteBitsMsb : ∀ b < 256, foldBitsNat (byteBitsMsb b) = b := by
  set_option maxRecDepth 4096 in decide

/-- Folding sixteen bits of two bytes reads them big-endian. -/
theorem foldBits_two_bytes (hi lo : Nat) (hh : hi < 256) (hl : lo < 256) :
    foldBitsNat (byteBitsMsb hi ++ byteBitsMsb lo) = hi * 256 + lo := by
  unfold foldBitsNat
  rw [List.foldl_append]
  have h1 : List.foldl (fun a b => 2 * a + (if b then 1 else 0)) 0 (byteBitsMsb hi) = hi :=
    foldBits_byteBitsMsb hi hh
  rw [h1, foldBits_from_acc]
  have h2 : List.foldl (fun a b => 2 * a + (if b then 1 else 0)) 0 (byteBitsMsb lo) = lo :=
    foldBits_byteBitsMsb lo hl
  rw [h2, show (byteBitsMsb lo).length = 8 from rfl]
  norm_num

/-- C9 (amended): when the declared 16-bit count exceeds the available
payload bits, `HuffmanCodec::decode` clamps to the available bits —
the result (including any escape error, see
`huffman_decode_overdeclared_error`) is exactly that of decoding the
same stream with the header rewritten to the available bit count;
the excess declaration itself never causes an error. -/
theorem huffman_decode_clamps (data : List Nat) (h2 : 2 ≤ data.length)
    (hgt : 8 * data.length - 16 < foldBitsNat ((bitsOfBytesMsb data).take 16)) :
    decode data = decode (be16 (8 * data.length - 16) ++ data.drop 2) := by
  rcases data with _ | ⟨b0, _ | ⟨b1, rest⟩⟩
  · simp at h2
  · simp at h2
  · have hA : bitsOfBytesMsb (b0 :: b1 :: rest) =
        (byteBitsMsb b0 ++ byteBitsMsb b1) ++ bitsOfBytesMsb rest := by
      simp [bitsOfBytesMsb]
    have hlen16 : (byteBitsMsb b0 ++ byteBitsMsb b1).length = 16 := rfl
    have htake : (bitsOfBytesMsb (b0 :: b1 :: rest)).take 16 =
        byteBitsMsb b0 ++ byteBitsMsb b1 := by
      rw [hA, ← hlen16, List.take_left]
    have hdrop : (bitsOfBytesMsb (b0 :: b1 :: rest)).drop 16 = bitsOfBytesMsb rest := by
      rw [hA, ← hlen16, List.drop_left]
    have hAlen : (bitsOfBytesMsb (b0 :: b1 :: rest)).length = 8 * rest.length + 16 := by
      rw [bitsOfBytesMsb_length]
      simp only [List.length_cons]
      ring
    have hrestlen : (bitsOfBytesMsb rest).length = 8 * rest.length :=
      bitsOfBytesMsb_length rest
    have hdlt : foldBitsNat ((bitsOfBytesMsb (b0 :: b1 :: rest)).take 16) < 65536 := by
      have h := foldBitsNat_lt ((bitsOfBytesMsb (b0 :: b1 :: rest)).take 16)
      rw [htake, hlen16] at h
      exact h
    have havail : 8 * (b0 :: b1 :: rest).length - 16 = 8 * rest.length := by
      simp only [List.length_cons]
      omega
    rw [havail] at hgt ⊢
    have hL : decode (b0 :: b1 :: rest) =
        decodeBits (bitsOfBytesMsb rest).length (bitsOfBytesMsb rest) decode_tree [] := by
      unfold decode
      rw [if_neg (by simp)]
      dsimp only
      rw [if_neg (by rw [hAlen]; omega), hdrop, hAlen]
      rw [show min (foldBitsNat ((bitsOfBytesMsb (b0 :: b1 :: rest)).take 16))
          (8 * rest.length + 16 - 16) = 8 * rest.length from by omega]
      rw [show (bitsOfBytesMsb rest).take (8 * rest.length) = bitsOfBytesMsb rest from by
        rw [← hrestlen, List.take_length]]
    have hdrop2 : (b0 :: b1 :: rest).drop 2 = rest := rfl
    rw [hdrop2]
    have havlt : 8 * rest.length < 65536 := by omega
    have hR : decode (be16 (8 * rest.length) ++ rest) =
        decodeBits (bitsOfBytesMsb rest).length (bitsOfBytesMsb rest) decode_tree [] := by
      have hB : bitsOfBytesMsb (be16 (8 * rest.length) ++ rest) =
          (byteBitsMsb (8 * rest.length / 256 % 256) ++
            byteBitsMsb (8 * rest.length % 256)) ++ bitsOfBytesMsb rest := by
        simp [bitsOfBytesMsb, be16]
      have hlen16B : (byteBitsMsb (8 * rest.length / 256 % 256) ++
          byteBitsMsb (8 * rest.length % 256)).length = 16 := rfl
      have htakeB : (bitsOfBytesMsb (be16 (8 * rest.length) ++ rest)).take 16 =
          byteBitsMsb (8 * rest.length / 256 % 256) ++
            byteBitsMsb (8 * rest.length % 256) := by
        rw [hB, ← hlen16B, List.take_left]
      have hdropB : (bitsOfBytesMsb (be16 (8 * rest.length) ++ rest)).drop 16 =
          bitsOfBytesMsb rest := by
        rw [hB, ← hlen16B, List.drop_left]
      have hBlen : (bitsOfBytesMsb (be16 (8 * rest.length) ++ rest)).length =
          8 * rest.length + 16 := by
        rw [bitsOfBytesMsb_length]
        simp only [List.length_append, List.length_cons, be16]
        simp
        ring
      have hfold : foldBitsNat (byteBitsMsb (8 * rest.length / 256 % 256) ++
          byteBitsMsb (8 * rest.length % 256)) = 8 * rest.length := by
        rw [foldBits_two_bytes _ _ (by omega) (by omega)]
        omega
      unfold decode
      rw [if_neg (by simp [be16])]
      dsimp only
      rw [if_neg (by rw [hBlen]; omega), htakeB, hfold, hdropB, hBlen]
      rw [show min (8 * rest.length) (8 * rest.length + 16 - 16) = 8 * rest.length from by
        omega]
      rw [show (bitsOfBytesMsb rest).take (8 * rest.length) = bitsOfBytesMsb rest from by
        rw [← hrestlen, List.take_length]]
    rw [hL, hR]


/-- C1 (code bug evaluated at the failing input): the canonical code
of `'q'` is thirteen `1` bits; in `encode "qq"` the two codes
concatenate to twenty-six consecutive ones, the decoder misreads
them as a UTF-8 escape marker, finds the escape incomplete and stops
— `decode (encode "qq")` is `Ok ""`, not `Ok "qq"`. -/
theorem huffman_roundtrip_failure :
    lookupCode (Char.ofNat 113) = some (List.replicate 13 true) ∧
    decode (encode "qq".toList) = .ok [] ∧
    "qq".toList ≠ ([] : List Char) := by
  refine ⟨?_, ?_, by decide⟩
  · set_option maxRecDepth 16384 in rfl
  · set_option maxRecDepth 16384 in rfl

/-- Witness for C6 at a concrete text. -/
theorem huffman_wire_format_witness :
    readU16 ((encode "HELLO".toList).getD 0 0) ((encode "HELLO".toList).getD 1 0) =
      (encodeBits "HELLO".toList).length ∧
    (encode "HELLO".toList).length = (16 + (encodeBits "HELLO".toList).length + 7) / 8 ∧
    bitsOfBytesMsb (encode "HELLO".toList) =
      word16BitsMsb (encodeBits "HELLO".toList).length ++ encodeBits "HELLO".toList ++
        List.replicate ((8 - (16 + (encodeBits "HELLO".toList).length) % 8) % 8) false :=
  huffman_wire_format "HELLO".toList (by decide)

/-- C9 counterexample: an input whose declared bit count (65535)
exceeds the 32 available payload bits, where decode nevertheless
returns an error — the available bits are an escape marker carrying
the invalid UTF-8 byte `0xFF`. -/
theorem huffman_decode_overdeclared_error :
    foldBitsNat ((bitsOfBytesMsb [0xFF, 0xFF, 0xFF, 0xFF, 0xF3, 0xFC]).take 16) = 65535 ∧
    8 * ([0xFF, 0xFF, 0xFF, 0xFF, 0xF3, 0xFC] : List Nat).length - 16 = 32 ∧
    decode [0xFF, 0xFF, 0xFF, 0xFF, 0xF3, 0xFC] =
      .error (.DecodingFailed "Invalid UTF-8 in escape") :=
  ⟨rfl, rfl, rfl⟩

/-- Witness for C9 at a concrete over-declared input. -/
theorem huffman_decode_clamps_witness :
    decode [0xFF, 0xFF, 0x00] =
      decode (be16 (8 * ([0xFF, 0xFF, 0x00] : List Nat).length - 16) ++
        ([0xFF, 0xFF, 0x00] : List Nat).drop 2) :=
  huffman_decode_clamps [0xFF, 0xFF, 0x00] (by norm_num) (by decide)

end HuffmanClaims
